import Mathlib

/-!
Shallow embedding of the PPRL encode → harden → compare pipeline
(`src/linkage/hashing.py`, `src/linkage/hardening.py`, `src/linkage/encoder.py`).

Python's `random` module is a single ambient stream of pseudo-random draws.
We model the stream consumed by the BLIP hardener as an infinite tape of
rationals in `[0,1)` together with a cursor: `random.random()` reads the value
under the cursor and advances it, and `random.choice([0,1])` consumes one draw
of the same shared stream and turns it into a bit.  The seeded generator used
by the Bloom-filter encoder (`random.seed(n)` followed by `random.randint`
calls) is modelled by an abstract draw function `mt : seed → index → ℕ`
together with the `(seed, counter)` state that `random.seed` resets.
-/

namespace PPRL

/-! ## Ambient random stream (model of the `random` module as used by
`hardening.py`): a tape of rationals in `[0,1)` plus a cursor. -/

/-- State of the global random stream: the tape of future draws and the
position of the next draw. -/
structure RandGen where
  tape : ℕ → ℚ
  pos : ℕ

/-- `random.random()`: read the draw under the cursor and advance the
shared stream. -/
def RandGen.next (g : RandGen) : ℚ × RandGen :=
  (g.tape g.pos, ⟨g.tape, g.pos + 1⟩)

/-- A tape is valid when every draw lies in `[0,1)`, as `random.random()`
guarantees. -/
def RandGen.Valid (g : RandGen) : Prop :=
  ∀ n, 0 ≤ g.tape n ∧ g.tape n < 1

/-- `random.choice([0,1])`: consume one draw of the same shared stream and
convert it into a uniform bit (`true` encodes the Python value `1`). -/
def randomChoice01 (g : RandGen) : Bool × RandGen :=
  let r := g.next
  (decide (mkRat 1 2 ≤ r.1), r.2)

/-! ## `hardening.py`: the BLIP hardener -/

/-- The `BLIP` hardening class: selection method (`"ala"` or `"sch"`),
flip probability, and the stored (but otherwise unused) `random_seed`
constructor argument, whose Python default is `42` and which may be `None`. -/
structure BLIP where
  sel_method : String
  blip_prob : ℚ
  random_seed : Option ℤ

/-- The constructor asserts `sel_method in ['ala','sch']` and
`0 <= blip_prob <= 1`. -/
def BLIP.Valid (b : BLIP) : Prop :=
  (b.sel_method = "ala" ∨ b.sel_method = "sch") ∧ 0 ≤ b.blip_prob ∧ b.blip_prob ≤ 1

/-- One iteration of the loop body of `BLIP.harden_bf`: draw
`rand = random.random()`; if `rand <= blip_prob` then under `'ala'` the bit is
complemented and under `'sch'` it is replaced by `random.choice([0,1])`
(any other method leaves the initialised `new_bit = 0`); otherwise the
original bit is copied. -/
def hardenBit (sel_method : String) (blip_prob : ℚ) (b : Bool) (g : RandGen) :
    Bool × RandGen :=
  let r := g.next
  if r.1 ≤ blip_prob then
    if sel_method = "ala" then (!b, r.2)
    else if sel_method = "sch" then randomChoice01 r.2
    else (false, r.2)
  else (b, r.2)

/-- The position loop of `BLIP.harden_bf`, threading the shared random
stream through the per-bit draws in position order. -/
def hardenList (sel_method : String) (blip_prob : ℚ) :
    List Bool → RandGen → List Bool × RandGen
  | [], g => ([], g)
  | b :: bs, g =>
    let s := hardenBit sel_method blip_prob b g
    let rest := hardenList sel_method blip_prob bs s.2
    (s.1 :: rest.1, rest.2)

/-- `BLIP.harden_bf`: flip bits of `bf` position by position, consuming the
shared global random stream, and return the new Bloom filter together with
the advanced stream. -/
def harden_bf (blip : BLIP) (bf : List Bool) (g : RandGen) : List Bool × RandGen :=
  hardenList blip.sel_method blip.blip_prob bf g

/-! ## `hashing.py`: random hashing of q-gram sets into Bloom filters

The module calls `random.seed(int(hexdigest, 16))` before drawing the `k`
positions of each q-gram, so the state of the seeded generator is a pair
`(seed, counter)`; `random.seed` resets it and each `random.randint` call
advances the counter.  The Mersenne–Twister draw sequence itself is abstract:
`mt seed i` is the `i`-th raw draw after seeding with `seed`, and
`random.randint(0, b)` maps it into `[0, b]` by reduction mod `b + 1`.
Likewise `hashFn q` stands for `int(hash_funct(q.encode("utf-8")).hexdigest(), 16)`. -/

/-- State of the `random` module as used by `hashing.py`: the last seed set
by `random.seed` and the number of draws made since. -/
structure PyRandState where
  seed : ℕ
  cnt : ℕ

/-- `random.seed(n)`: reset the generator state deterministically from `n`. -/
def pySeed (n : ℕ) : PyRandState := ⟨n, 0⟩

/-- `random.randint(0, b)` (both bounds inclusive): produce the next draw of
the seeded sequence, reduced into `[0, b]`, and advance the state. -/
def pyRandint (mt : ℕ → ℕ → ℕ) (b : ℕ) (s : PyRandState) : ℕ × PyRandState :=
  (mt s.seed s.cnt % (b + 1), ⟨s.seed, s.cnt + 1⟩)

/-- Salting: `if salt_str is not None: q_gram = q_gram + salt_str`. -/
def saltQ (salt_str : Option String) (q_gram : String) : String :=
  match salt_str with
  | none => q_gram
  | some t => q_gram ++ t

/-- Body of the per-q-gram loop of `RandomHashing.hash_q_gram_set`: salt the
q-gram, seed the generator from its digest, then draw `k` positions in
`[0, bf_len_m1]` and set each of them to 1. -/
def hashStep (hashFn : String → ℕ) (mt : ℕ → ℕ → ℕ) (bf_len_m1 k : ℕ)
    (salt_str : Option String) (acc : List Bool × PyRandState) (q_gram : String) :
    List Bool × PyRandState :=
  let q := saltQ salt_str q_gram
  (List.range k).foldl
    (fun a _ =>
      let d := pyRandint mt bf_len_m1 a.2
      (a.1.set d.1 true, d.2))
    (acc.1, pySeed (hashFn q))

/-- `RandomHashing.hash_q_gram_set`: start from the all-zero Bloom filter of
length `bf_len`, hash every q-gram of the set in iteration order, and return
the Bloom filter together with the final state of the shared generator. -/
def hash_q_gram_set (hashFn : String → ℕ) (mt : ℕ → ℕ → ℕ) (bf_len k : ℕ)
    (q_gram_set : List String) (salt_str : Option String) (s : PyRandState) :
    List Bool × PyRandState :=
  q_gram_set.foldl (hashStep hashFn mt (bf_len - 1) k salt_str)
    (List.replicate bf_len false, s)

/-- The `k` positions a (salted) q-gram hashes to: the first `k` draws of the
generator seeded from the q-gram's digest, reduced into `[0, bf_len_m1]`. -/
def qgramPositions (hashFn : String → ℕ) (mt : ℕ → ℕ → ℕ) (bf_len_m1 k : ℕ)
    (q : String) : List ℕ :=
  (List.range k).map (fun i => mt (hashFn q) i % (bf_len_m1 + 1))

/-- Setting a list of positions to 1, one `bf[pos_i] = 1` update at a time. -/
def setPos (bf : List Bool) (ps : List ℕ) : List Bool :=
  ps.foldl (fun b p => b.set p true) bf

/-! ## `encoder.py`: the linkage engine of `compare_record_pairs` -/

/-- Modelled from the spec: the module `simcalc` imported by `encoder.py` for
`bit_array_dice_sim` is not among the sources.  Following the spec,
`Dice(A,B) = 2·popcount(A AND B) / (popcount(A)+popcount(B))`, defined as 0
when both popcounts are 0 to avoid division by zero. -/
def bit_array_dice_sim (A B : List Bool) : ℚ :=
  if A.count true + B.count true = 0 then 0
  else (2 * ((A.zipWith (fun x y => x && y) B).count true) : ℚ) /
    ((A.count true : ℚ) + (B.count true : ℚ))

/-- The four outcome counters of one similarity variant for one subset. -/
structure Counters where
  c11correct : ℕ
  c11wrong : ℕ
  c1ncorrect : ℕ
  c1nwrong : ℕ

/-- All four outcome counters start at 0 for a fresh subset. -/
def Counters.init : Counters := ⟨0, 0, 0, 0⟩

/-- Sum of the four outcome counters of one variant. -/
def Counters.total (c : Counters) : ℕ :=
  c.c11correct + c.c11wrong + c.c1ncorrect + c.c1nwrong

/-- `max_value = max(sim_data.values())`: the maximum over a non-empty
similarity map (the Python call raises on an empty one; 0 is a junk value
for that unreachable case). -/
def maxSim : List (String × ℚ) → ℚ
  | [] => 0
  | x :: xs => xs.foldl (fun a p => max a p.2) x.2

/-- `max_keys = [k for k, v in sim_data.items() if v == max_value]`: all
candidates attaining the maximum similarity, ties retained. -/
def maxKeys (sim_data : List (String × ℚ)) : List String :=
  (sim_data.filter (fun p => decide (p.2 = maxSim sim_data))).map Prod.fst

/-- The outcome classification of one query record for one similarity
variant (`encoder.py` lines 219–233): if exactly one candidate attains the
maximum, compare it with the query's identifier; if more than one does,
test whether the query is among them. -/
def classify (rec_id : String) (sim_data : List (String × ℚ)) (c : Counters) :
    Counters :=
  let max_keys := maxKeys sim_data
  let c1 :=
    if max_keys.length = 1 then
      if max_keys.headD "" = rec_id then
        { c with c11correct := c.c11correct + 1 }
      else
        { c with c11wrong := c.c11wrong + 1 }
    else c
  if max_keys.length > 1 then
    if rec_id ∈ max_keys then
      { c1 with c1ncorrect := c1.c1ncorrect + 1 }
    else
      { c1 with c1nwrong := c1.c1nwrong + 1 }
  else c1

/-- A record as the comparison loop sees it: identifier, original Bloom
filter (`og_bf`), hardened Bloom filter (`hd_bf`). -/
structure LinkRec where
  id : String
  og_bf : List Bool
  hd_bf : List Bool

/-- Body of the query loop of `compare_record_pairs`: build the
`og_bf_dice_sim` and `blip_bf_dice_sim` maps of one query record against
every candidate of the comparison pool, then classify the query under both
variants. -/
def queryStep (pool : List LinkRec) (c : Counters × Counters) (q : LinkRec) :
    Counters × Counters :=
  let og_bf_dice_sim := pool.map (fun cr => (cr.id, bit_array_dice_sim q.og_bf cr.og_bf))
  let blip_bf_dice_sim := pool.map (fun cr => (cr.id, bit_array_dice_sim q.hd_bf cr.hd_bf))
  (classify q.id og_bf_dice_sim c.1, classify q.id blip_bf_dice_sim c.2)

/-- The per-subset comparison loop of `compare_record_pairs`: classify every
query record of the subset against the comparison pool, accumulating the
original-variant and hardened-variant counters from zero. -/
def compareSubset (pool : List LinkRec) (queries : List LinkRec) :
    Counters × Counters :=
  queries.foldl (queryStep pool) (Counters.init, Counters.init)

/-- The pool-size assertion of `compare_record_pairs`: the chained Python
comparison `len(all_records_to_compare) == (len(rec_type_dict) +
len(base_records)) == (base_sample_size + 1000)`. -/
def pool_size_check (pool_len sub_len base_len base_sample_size : ℕ) : Bool :=
  (pool_len == sub_len + base_len) && (sub_len + base_len == base_sample_size + 1000)

/-- The per-subset body guarded by the fatal pool-size assertion: the engine
aborts with a diagnostic instead of producing counters when the assertion
fails. -/
def compareSubsetChecked (pool queries : List LinkRec)
    (base_len base_sample_size : ℕ) : Except String (Counters × Counters) :=
  if pool_size_check pool.length queries.length base_len base_sample_size then
    Except.ok (compareSubset pool queries)
  else
    Except.error "Total number of records to compare does not match the expected value"

/-- The inner draw loop of `hashStep`, started just after `random.seed`,
sets exactly the positions `qgramPositions` and leaves the generator at
counter `k`. -/
theorem hashStep_eq (hashFn : String → ℕ) (mt : ℕ → ℕ → ℕ) (bf_len_m1 k : ℕ)
    (salt_str : Option String) (bf : List Bool) (s : PyRandState) (q_gram : String) :
    hashStep hashFn mt bf_len_m1 k salt_str (bf, s) q_gram =
      (setPos bf (qgramPositions hashFn mt bf_len_m1 k (saltQ salt_str q_gram)),
       ⟨hashFn (saltQ salt_str q_gram), k⟩) := by
  unfold hashStep qgramPositions setPos
  induction k with
  | zero => rfl
  | succ k ih =>
    rw [List.range_succ, List.foldl_append, ih, List.map_append, List.foldl_append]
    rfl

/-- `hashStep` never reads the incoming generator state: `random.seed`
overwrites it before any draw. -/
theorem hashStep_state_irrel (hashFn : String → ℕ) (mt : ℕ → ℕ → ℕ)
    (bf_len_m1 k : ℕ) (salt_str : Option String) (bf : List Bool)
    (s s' : PyRandState) (q_gram : String) :
    hashStep hashFn mt bf_len_m1 k salt_str (bf, s) q_gram =
      hashStep hashFn mt bf_len_m1 k salt_str (bf, s') q_gram := rfl

/-- Setting positions does not change the length of the Bloom filter. -/
theorem setPos_length (ps : List ℕ) (bf : List Bool) :
    (setPos bf ps).length = bf.length := by
  induction ps generalizing bf with
  | nil => rfl
  | cons p ps ih =>
    have h1 : setPos bf (p :: ps) = setPos (bf.set p true) ps := rfl
    rw [h1, ih, List.length_set]

/-- Entrywise description of `setPos`: a position read back is 1 exactly when
it was set (within bounds) or was already 1. -/
theorem setPos_getElem? (ps : List ℕ) (bf : List Bool) (j : ℕ) :
    (setPos bf ps)[j]? = if j ∈ ps ∧ j < bf.length then some true else bf[j]? := by
  induction ps generalizing bf with
  | nil => simp [setPos]
  | cons p ps ih =>
    have h1 : setPos bf (p :: ps) = setPos (bf.set p true) ps := rfl
    rw [h1, ih, List.length_set]
    by_cases hpj : p = j
    · subst hpj
      by_cases hl : p < bf.length
      · by_cases hj : p ∈ ps <;>
          simp [hj, hl, List.getElem?_set, List.mem_cons]
      · by_cases hj : p ∈ ps <;>
          simp [hj, hl, List.getElem?_set, List.mem_cons,
            List.getElem?_eq_none (le_of_not_lt hl)]
    · by_cases hj : j ∈ ps <;> by_cases hl : j < bf.length <;>
        simp [hpj, hj, hl, List.getElem?_set, List.mem_cons, Ne.symm hpj]

/-- Setting one position to 1 increases the popcount by at most one. -/
theorem count_set_le (bf : List Bool) (p : ℕ) :
    (bf.set p true).count true ≤ bf.count true + 1 := by
  induction bf generalizing p with
  | nil => simp
  | cons b bs ih =>
    cases p with
    | zero =>
      rcases b with _ | _ <;> simp [List.set, List.count_cons] <;> omega
    | succ p =>
      have := ih p
      rcases b with _ | _ <;> simp [List.set, List.count_cons] <;> omega

/-- Setting a list of positions increases the popcount by at most its length. -/
theorem setPos_count_le (ps : List ℕ) (bf : List Bool) :
    (setPos bf ps).count true ≤ bf.count true + ps.length := by
  induction ps generalizing bf with
  | nil => simp [setPos]
  | cons p ps ih =>
    have h1 : setPos bf (p :: ps) = setPos (bf.set p true) ps := rfl
    rw [h1]
    calc (setPos (bf.set p true) ps).count true
        ≤ (bf.set p true).count true + ps.length := ih (bf.set p true)
      _ ≤ bf.count true + 1 + ps.length := by
          have := count_set_le bf p
          omega
      _ = bf.count true + (p :: ps).length := by simp only [List.length_cons]; omega

/-- Each q-gram draws exactly `k` (not necessarily distinct) positions. -/
theorem qgramPositions_length (hashFn : String → ℕ) (mt : ℕ → ℕ → ℕ)
    (bf_len_m1 k : ℕ) (q : String) :
    (qgramPositions hashFn mt bf_len_m1 k q).length = k := by
  simp [qgramPositions]

/-- The q-gram loop of `hash_q_gram_set` preserves the Bloom filter length. -/
theorem hashFold_length (hashFn : String → ℕ) (mt : ℕ → ℕ → ℕ)
    (bf_len_m1 k : ℕ) (salt_str : Option String) (Q : List String)
    (bf : List Bool) (s : PyRandState) :
    ((Q.foldl (hashStep hashFn mt bf_len_m1 k salt_str) (bf, s)).1).length =
      bf.length := by
  induction Q generalizing bf s with
  | nil => rfl
  | cons q Q ih =>
    rw [List.foldl_cons, hashStep_eq]
    rw [ih]
    exact setPos_length _ _

/-- Entrywise description of the q-gram loop: a position ends up 1 exactly
when some q-gram of the list hashes to it, or it was already 1. -/
theorem hashFold_getElem? (hashFn : String → ℕ) (mt : ℕ → ℕ → ℕ)
    (bf_len_m1 k : ℕ) (salt_str : Option String) (Q : List String)
    (bf : List Bool) (s : PyRandState) (j : ℕ) :
    ((Q.foldl (hashStep hashFn mt bf_len_m1 k salt_str) (bf, s)).1)[j]? =
      if (∃ q ∈ Q, j ∈ qgramPositions hashFn mt bf_len_m1 k (saltQ salt_str q)) ∧
          j < bf.length
      then some true else bf[j]? := by
  induction Q generalizing bf s with
  | nil => simp
  | cons q Q ih =>
    rw [List.foldl_cons, hashStep_eq, ih, setPos_length, setPos_getElem?]
    by_cases hq : j ∈ qgramPositions hashFn mt bf_len_m1 k (saltQ salt_str q) <;>
      by_cases hQ : ∃ p ∈ Q, j ∈ qgramPositions hashFn mt bf_len_m1 k (saltQ salt_str p) <;>
      by_cases hl : j < bf.length <;>
      simp [hq, hQ, hl]

/-- The q-gram loop never reads the generator state it starts from. -/
theorem hashFold_state_irrel (hashFn : String → ℕ) (mt : ℕ → ℕ → ℕ)
    (bf_len_m1 k : ℕ) (salt_str : Option String) (Q : List String)
    (bf : List Bool) (s s' : PyRandState) :
    (Q.foldl (hashStep hashFn mt bf_len_m1 k salt_str) (bf, s)).1 =
      (Q.foldl (hashStep hashFn mt bf_len_m1 k salt_str) (bf, s')).1 := by
  cases Q with
  | nil => rfl
  | cons q Q => rw [List.foldl_cons, List.foldl_cons, hashStep_eq, hashStep_eq]

/-- The q-gram loop adds at most `k` set bits per q-gram. -/
theorem hashFold_count_le (hashFn : String → ℕ) (mt : ℕ → ℕ → ℕ)
    (bf_len_m1 k : ℕ) (salt_str : Option String) (Q : List String)
    (bf : List Bool) (s : PyRandState) :
    ((Q.foldl (hashStep hashFn mt bf_len_m1 k salt_str) (bf, s)).1).count true ≤
      bf.count true + Q.length * k := by
  induction Q generalizing bf s with
  | nil => simp
  | cons q Q ih =>
    rw [List.foldl_cons, hashStep_eq]
    calc ((Q.foldl (hashStep hashFn mt bf_len_m1 k salt_str)
            (setPos bf (qgramPositions hashFn mt bf_len_m1 k (saltQ salt_str q)),
             ⟨hashFn (saltQ salt_str q), k⟩)).1).count true
        ≤ (setPos bf (qgramPositions hashFn mt bf_len_m1 k (saltQ salt_str q))).count true
            + Q.length * k := ih _ _
      _ ≤ bf.count true + k + Q.length * k := by
          have h := setPos_count_le
            (qgramPositions hashFn mt bf_len_m1 k (saltQ salt_str q)) bf
          rw [qgramPositions_length] at h
          omega
      _ = bf.count true + (q :: Q).length * k := by
          simp only [List.length_cons]
          ring

/-- Unfolding of the loop body of `harden_bf` for a non-empty input. -/
theorem hardenList_cons (m : String) (p : ℚ) (b : Bool) (bs : List Bool) (g : RandGen) :
    hardenList m p (b :: bs) g =
      ((hardenBit m p b g).1 :: (hardenList m p bs (hardenBit m p b g).2).1,
       (hardenList m p bs (hardenBit m p b g).2).2) := by
  simp only [hardenList]

/-- The running maximum used by `maxSim` either keeps its initial value or is
attained by some entry of the list. -/
theorem foldl_max_attained (xs : List (String × ℚ)) (a : ℚ) :
    xs.foldl (fun acc p => max acc p.2) a = a ∨
    ∃ p ∈ xs, xs.foldl (fun acc p => max acc p.2) a = p.2 := by
  induction xs generalizing a with
  | nil => left; rfl
  | cons y ys ih =>
    rw [List.foldl_cons]
    rcases ih (max a y.2) with h | ⟨p, hp, hfp⟩
    · rcases max_choice a y.2 with hm | hm
      · left; rw [h, hm]
      · right; exact ⟨y, List.mem_cons_self y ys, by rw [h, hm]⟩
    · right; exact ⟨p, List.mem_cons_of_mem _ hp, hfp⟩

/-- For a non-empty similarity map the maximum value is attained. -/
theorem maxSim_attained (l : List (String × ℚ)) (h : l ≠ []) :
    ∃ p ∈ l, p.2 = maxSim l := by
  cases l with
  | nil => exact absurd rfl h
  | cons x xs =>
    rcases foldl_max_attained xs x.2 with h1 | ⟨p, hp, hfp⟩
    · exact ⟨x, List.mem_cons_self x xs, by rw [maxSim, h1]⟩
    · exact ⟨p, List.mem_cons_of_mem _ hp, by rw [maxSim, hfp]⟩

/-- For a non-empty similarity map, `max_keys` is non-empty: some candidate
always attains the maximum. -/
theorem maxKeys_ne_nil (l : List (String × ℚ)) (h : l ≠ []) : maxKeys l ≠ [] := by
  obtain ⟨p, hp, hpm⟩ := maxSim_attained l h
  have hmem : p.1 ∈ maxKeys l :=
    List.mem_map_of_mem _ (List.mem_filter.mpr ⟨hp, by simp [hpm]⟩)
  intro hnil
  rw [hnil] at hmem
  exact List.not_mem_nil _ hmem

/-- A list of length one is the singleton of its first element. -/
theorem length_one_headD (mk : List String) (h : mk.length = 1) :
    mk = [mk.headD ""] := by
  cases mk with
  | nil => simp at h
  | cons x xs =>
    cases xs with
    | nil => rfl
    | cons y ys => simp at h

/-- Each classification of a query with a non-empty similarity map increases
the sum of the four outcome counters by exactly one. -/
theorem classify_total (rec_id : String) (sim_data : List (String × ℚ))
    (c : Counters) (h : sim_data ≠ []) :
    (classify rec_id sim_data c).total = c.total + 1 := by
  have h0 := maxKeys_ne_nil sim_data h
  simp only [classify]
  by_cases h1 : (maxKeys sim_data).length = 1
  · rw [if_pos h1, if_neg (by omega : ¬ (maxKeys sim_data).length > 1)]
    by_cases h2 : (maxKeys sim_data).headD "" = rec_id
    · rw [if_pos h2]; simp only [Counters.total]; omega
    · rw [if_neg h2]; simp only [Counters.total]; omega
  · have hg : 1 < (maxKeys sim_data).length := by
      have hz : (maxKeys sim_data).length ≠ 0 :=
        fun hz => h0 (List.length_eq_zero.mp hz)
      omega
    rw [if_neg h1, if_pos hg]
    by_cases h2 : rec_id ∈ maxKeys sim_data
    · rw [if_pos h2]; simp only [Counters.total]; omega
    · rw [if_neg h2]; simp only [Counters.total]; omega

/-- Popcount of a bitwise AND is bounded by the popcount of the left input. -/
theorem count_zipWith_and_le_left (A B : List Bool) :
    (A.zipWith (fun x y => x && y) B).count true ≤ A.count true := by
  induction A generalizing B with
  | nil => simp
  | cons a as ih =>
    cases B with
    | nil => simp
    | cons b bs =>
      have h := ih bs
      rcases a with _ | _ <;> rcases b with _ | _ <;>
        simp only [List.zipWith_cons_cons, List.count_cons, Bool.false_and,
          Bool.true_and, Bool.and_false, Bool.and_true] <;> simp <;> omega

/-- Popcount of a bitwise AND is bounded by the popcount of the right input. -/
theorem count_zipWith_and_le_right (A B : List Bool) :
    (A.zipWith (fun x y => x && y) B).count true ≤ B.count true := by
  induction A generalizing B with
  | nil => simp
  | cons a as ih =>
    cases B with
    | nil => simp
    | cons b bs =>
      have h := ih bs
      rcases a with _ | _ <;> rcases b with _ | _ <;>
        simp only [List.zipWith_cons_cons, List.count_cons, Bool.false_and,
          Bool.true_and, Bool.and_false, Bool.and_true] <;> simp <;> omega

end PPRL

open PPRL

/-- C5: with flip probability 1 and the `'ala'` selection method, every
per-position draw `rand` (which `random.random()` keeps strictly below 1)
satisfies `rand <= 1`, so `harden_bf` deterministically complements every bit
of the input. -/
theorem harden_bf_ala_p1_complements (rs : Option ℤ) (bf : List Bool) (g : RandGen)
    (h : ∀ n, g.tape n < 1) :
    (harden_bf ⟨"ala", 1, rs⟩ bf g).1 = bf.map (fun b => !b) := by
  unfold harden_bf
  induction bf generalizing g with
  | nil => rfl
  | cons b bs ih =>
    rw [hardenList_cons]
    have hb : hardenBit "ala" 1 b g = (!b, ⟨g.tape, g.pos + 1⟩) := by
      unfold hardenBit RandGen.next
      rw [if_pos (le_of_lt (h g.pos)), if_pos rfl]
    rw [hb]
    simp only [List.map_cons, List.cons.injEq]
    exact ⟨trivial, ih ⟨g.tape, g.pos + 1⟩ (fun n => h n)⟩

/-- Witness for C5 at a concrete input: the all-halves tape is valid and
hardening `[true, false]` with `p = 1` under `'ala'` yields `[false, true]`. -/
theorem harden_bf_ala_p1_complements_witness :
    (∀ n, (RandGen.mk (fun _ => mkRat 1 2) 0).tape n < 1) ∧
    (harden_bf ⟨"ala", 1, some 42⟩ [true, false] ⟨fun _ => mkRat 1 2, 0⟩).1 =
      [true, false].map (fun b => !b) := by
  refine ⟨fun n => show mkRat 1 2 < 1 by decide, ?_⟩
  exact harden_bf_ala_p1_complements (some 42) [true, false] ⟨fun _ => mkRat 1 2, 0⟩
    (fun n => show mkRat 1 2 < 1 by decide)

/-- C4 (counterexample): with flip probability 0 and the `'sch'` method,
`harden_bf` does not always return its input: `random.random()` ranges over
`[0,1)` and can return exactly 0, in which case `rand <= 0` holds, the
position is selected, and the bit is replaced by a fresh coin flip.  On the
tape `0, 1/2, 1/2, …` (a valid stream state) the single bit `0` becomes `1`. -/
theorem harden_bf_sch_p0_not_always_identity :
    (RandGen.Valid ⟨fun n => if n = 0 then 0 else mkRat 1 2, 0⟩) ∧
    (harden_bf ⟨"sch", 0, some 42⟩ [false]
        ⟨fun n => if n = 0 then 0 else mkRat 1 2, 0⟩).1 ≠ [false] := by
  constructor
  · intro n
    by_cases hn : n = 0 <;> simp only [RandGen.Valid, hn, if_true, if_false] <;> decide
  · decide

/-- C4 (amended): with flip probability 0 and the `'sch'` selection method,
`harden_bf` returns its input unchanged on every stream state whose draws are
all strictly positive (the failure event `rand = 0` has probability 0). -/
theorem harden_bf_sch_p0_identity (rs : Option ℤ) (bf : List Bool) (g : RandGen)
    (h : ∀ n, 0 < g.tape n) :
    (harden_bf ⟨"sch", 0, rs⟩ bf g).1 = bf := by
  unfold harden_bf
  induction bf generalizing g with
  | nil => rfl
  | cons b bs ih =>
    rw [hardenList_cons]
    have hb : hardenBit "sch" 0 b g = (b, ⟨g.tape, g.pos + 1⟩) := by
      unfold hardenBit RandGen.next
      rw [if_neg (not_le.mpr (h g.pos))]
    rw [hb]
    simp only [List.cons.injEq]
    exact ⟨trivial, ih ⟨g.tape, g.pos + 1⟩ (fun n => h n)⟩

/-- Witness for the amended C4 at a concrete input: the all-halves tape has
strictly positive draws and hardening `[true, false, true]` with `p = 0`
under `'sch'` returns it unchanged. -/
theorem harden_bf_sch_p0_identity_witness :
    (∀ n, 0 < (RandGen.mk (fun _ => mkRat 1 2) 0).tape n) ∧
    (harden_bf ⟨"sch", 0, some 42⟩ [true, false, true] ⟨fun _ => mkRat 1 2, 0⟩).1 =
      [true, false, true] := by
  refine ⟨fun n => show (0:ℚ) < mkRat 1 2 by decide, ?_⟩
  exact harden_bf_sch_p0_identity (some 42) [true, false, true] ⟨fun _ => mkRat 1 2, 0⟩
    (fun n => show (0:ℚ) < mkRat 1 2 by decide)

/-- C1: the per-bit draws of `harden_bf` come from the single ambient global
`random` stream, not from a generator owned by the `BLIP` instance.  On the
valid tape `0, 0, 3/4, 3/4, …`, one hardening pass advances the shared cursor
(so a later pass starts elsewhere on the stream), and the same `BLIP` instance
hardening the same one-bit Bloom filter produces different outputs depending
on how many draws an earlier pass has consumed; the output is therefore not
independent of whether another pool was hardened before. -/
theorem harden_bf_depends_on_shared_stream :
    (RandGen.Valid ⟨fun n => if n < 2 then 0 else mkRat 3 4, 0⟩) ∧
    (harden_bf ⟨"sch", 1, some 42⟩ [false]
        ⟨fun n => if n < 2 then 0 else mkRat 3 4, 0⟩).2.pos ≠ 0 ∧
    (harden_bf ⟨"sch", 1, some 42⟩ [false]
        ⟨fun n => if n < 2 then 0 else mkRat 3 4, 0⟩).1 ≠
      (harden_bf ⟨"sch", 1, some 42⟩ [false]
        ⟨fun n => if n < 2 then 0 else mkRat 3 4, 2⟩).1 := by
  refine ⟨?_, by decide, by decide⟩
  intro n
  by_cases hn : n < 2 <;> simp only [RandGen.Valid, hn, if_true, if_false] <;> decide

/-- C10: the `random_seed` constructor argument of `BLIP` is stored but never
read by `harden_bf`: two valid `BLIP` instances that agree on selection method
and flip probability but differ in `random_seed` produce identical outputs on
every input Bloom filter and every ambient random stream state. -/
theorem harden_bf_ignores_random_seed (b1 b2 : BLIP) (bf : List Bool) (g : RandGen)
    (hv1 : b1.Valid) (hv2 : b2.Valid)
    (hm : b1.sel_method = b2.sel_method) (hp : b1.blip_prob = b2.blip_prob) :
    harden_bf b1 bf g = harden_bf b2 bf g := by
  unfold harden_bf
  rw [hm, hp]

/-- Witness for C10 at a concrete input: seeds `42` and `None` with the same
method and probability give equal results. -/
theorem harden_bf_ignores_random_seed_witness :
    harden_bf ⟨"sch", mkRat 1 2, some 42⟩ [true, false] ⟨fun _ => mkRat 1 4, 0⟩ =
      harden_bf ⟨"sch", mkRat 1 2, none⟩ [true, false] ⟨fun _ => mkRat 1 4, 0⟩ := by
  exact harden_bf_ignores_random_seed ⟨"sch", mkRat 1 2, some 42⟩ ⟨"sch", mkRat 1 2, none⟩
    [true, false] ⟨fun _ => mkRat 1 4, 0⟩
    ⟨Or.inr rfl, by decide, by decide⟩ ⟨Or.inr rfl, by decide, by decide⟩
    rfl rfl

/-- C6: encoding is deterministic. For every non-empty q-gram list and fixed
configuration (digest function, filter length, hash count, salt), the Bloom
filter produced by `hash_q_gram_set` does not depend on the incoming state of
the shared generator — `random.seed` derived from each q-gram's digest
overwrites it before any draw — so two calls with identical arguments return
bit-identical vectors regardless of what other computation (consuming or
reseeding the generator) happens between the calls. -/
theorem hash_q_gram_set_deterministic (hashFn : String → ℕ) (mt : ℕ → ℕ → ℕ)
    (bf_len k : ℕ) (Q : List String) (salt_str : Option String)
    (s1 s2 : PyRandState) (h : Q ≠ []) :
    (hash_q_gram_set hashFn mt bf_len k Q salt_str s1).1 =
      (hash_q_gram_set hashFn mt bf_len k Q salt_str s2).1 := by
  unfold hash_q_gram_set
  exact hashFold_state_irrel hashFn mt (bf_len - 1) k salt_str Q
    (List.replicate bf_len false) s1 s2

/-- Witness for C6 at a concrete input: hashing `["ab"]` from two different
generator states gives the same Bloom filter. -/
theorem hash_q_gram_set_deterministic_witness :
    (["ab"] : List String) ≠ [] ∧
    (hash_q_gram_set String.length (fun sd i => sd + i) 4 2 ["ab"] none ⟨0, 0⟩).1 =
      (hash_q_gram_set String.length (fun sd i => sd + i) 4 2 ["ab"] none ⟨7, 3⟩).1 := by
  refine ⟨by decide, ?_⟩
  exact hash_q_gram_set_deterministic String.length (fun sd i => sd + i) 4 2 ["ab"]
    none ⟨0, 0⟩ ⟨7, 3⟩ (by decide)

/-- C7: the popcount of `hash_q_gram_set` is at most `|Q| * k` (each q-gram
draws `k` positions with replacement, so it may set fewer than `k` distinct
bits), and the resulting bit vector is independent of the iteration order of
the q-gram set, because each q-gram reseeds its own draw of positions. -/
theorem hash_q_gram_set_popcount_and_order (hashFn : String → ℕ) (mt : ℕ → ℕ → ℕ)
    (bf_len k : ℕ) (Q Q' : List String) (salt_str : Option String)
    (s s' : PyRandState) (hperm : Q.Perm Q') :
    ((hash_q_gram_set hashFn mt bf_len k Q salt_str s).1).count true ≤ Q.length * k ∧
    (hash_q_gram_set hashFn mt bf_len k Q salt_str s).1 =
      (hash_q_gram_set hashFn mt bf_len k Q' salt_str s').1 := by
  constructor
  · have h := hashFold_count_le hashFn mt (bf_len - 1) k salt_str Q
      (List.replicate bf_len false) s
    have h0 : (List.replicate bf_len false).count true = 0 := by
      rw [List.count_replicate]; simp
    unfold hash_q_gram_set
    omega
  · unfold hash_q_gram_set
    apply List.ext_getElem?
    intro j
    rw [hashFold_getElem?, hashFold_getElem?, List.length_replicate]
    have hiff : (∃ q ∈ Q, j ∈ qgramPositions hashFn mt (bf_len - 1) k
        (saltQ salt_str q)) ↔
        ∃ q ∈ Q', j ∈ qgramPositions hashFn mt (bf_len - 1) k (saltQ salt_str q) := by
      constructor
      · rintro ⟨q, hq, hj⟩
        exact ⟨q, hperm.subset hq, hj⟩
      · rintro ⟨q, hq, hj⟩
        exact ⟨q, hperm.symm.subset hq, hj⟩
    by_cases hc : ∃ q ∈ Q, j ∈ qgramPositions hashFn mt (bf_len - 1) k
        (saltQ salt_str q)
    · simp [hc, hiff.mp hc]
    · have hc' : ¬∃ q ∈ Q', j ∈ qgramPositions hashFn mt (bf_len - 1) k
          (saltQ salt_str q) := fun hx => hc (hiff.mpr hx)
      simp [hc, hc']

/-- Witness for C7 at a concrete input: hashing `["ab", "cde"]` and its
reversal from different generator states gives the same Bloom filter, whose
popcount is at most `2 * 2`. -/
theorem hash_q_gram_set_popcount_and_order_witness :
    (["ab", "cde"] : List String).Perm ["cde", "ab"] ∧
    ((hash_q_gram_set String.length (fun sd i => sd + i) 4 2 ["ab", "cde"]
        none ⟨0, 0⟩).1).count true ≤ 2 * 2 ∧
    (hash_q_gram_set String.length (fun sd i => sd + i) 4 2 ["ab", "cde"]
        none ⟨0, 0⟩).1 =
      (hash_q_gram_set String.length (fun sd i => sd + i) 4 2 ["cde", "ab"]
        none ⟨1, 5⟩).1 := by
  have hperm : (["ab", "cde"] : List String).Perm ["cde", "ab"] := by decide
  have h := hash_q_gram_set_popcount_and_order String.length (fun sd i => sd + i)
    4 2 ["ab", "cde"] ["cde", "ab"] none ⟨0, 0⟩ ⟨1, 5⟩ hperm
  exact ⟨hperm, h.1, h.2⟩

/-- C2: for a query record with a non-empty similarity map, the maximal set
`max_keys` retains all ties, is never empty (so exactly one of the four
cases below applies), and exactly one counter is incremented: `1-1-correct`
when the maximal set is the singleton of the query's identifier,
`1-1-wrong` when it is a different singleton, `1-n-correct` when it has more
than one member and the query is among them, `1-n-wrong` when it has more
than one member and the query is not among them. -/
theorem classify_outcome (rec_id : String) (sim_data : List (String × ℚ))
    (c : Counters) (h : sim_data ≠ []) :
    ((maxKeys sim_data).length = 1 ∨ 1 < (maxKeys sim_data).length) ∧
    (maxKeys sim_data = [rec_id] →
      classify rec_id sim_data c = { c with c11correct := c.c11correct + 1 }) ∧
    ((maxKeys sim_data).length = 1 → maxKeys sim_data ≠ [rec_id] →
      classify rec_id sim_data c = { c with c11wrong := c.c11wrong + 1 }) ∧
    (1 < (maxKeys sim_data).length → rec_id ∈ maxKeys sim_data →
      classify rec_id sim_data c = { c with c1ncorrect := c.c1ncorrect + 1 }) ∧
    (1 < (maxKeys sim_data).length → rec_id ∉ maxKeys sim_data →
      classify rec_id sim_data c = { c with c1nwrong := c.c1nwrong + 1 }) := by
  have h0 := maxKeys_ne_nil sim_data h
  have hlen : (maxKeys sim_data).length ≠ 0 :=
    fun hz => h0 (List.length_eq_zero.mp hz)
  refine ⟨by omega, ?_, ?_, ?_, ?_⟩
  · intro hmk
    simp [classify, hmk]
  · intro h1 h2
    have hd : maxKeys sim_data = [(maxKeys sim_data).headD ""] :=
      length_one_headD _ h1
    have hne : (maxKeys sim_data).headD "" ≠ rec_id :=
      fun he => h2 (by rw [hd, he])
    simp only [classify]
    rw [if_pos h1, if_neg hne, if_neg (by omega : ¬ (maxKeys sim_data).length > 1)]
  · intro hg hin
    simp only [classify]
    rw [if_neg (by omega : ¬ (maxKeys sim_data).length = 1), if_pos hg, if_pos hin]
  · intro hg hout
    simp only [classify]
    rw [if_neg (by omega : ¬ (maxKeys sim_data).length = 1), if_pos hg, if_neg hout]

/-- Witness for C2 at a concrete input: a single candidate equal to the query
yields the `1-1-correct` update. -/
theorem classify_outcome_witness :
    ([("a", (1:ℚ))] : List (String × ℚ)) ≠ [] ∧
    (maxKeys [("a", (1:ℚ))] = ["a"] →
      classify "a" [("a", (1:ℚ))] Counters.init =
        { Counters.init with c11correct := Counters.init.c11correct + 1 }) := by
  refine ⟨by simp, ?_⟩
  exact (classify_outcome "a" [("a", (1:ℚ))] Counters.init (by simp)).2.1

/-- C3: for a non-empty comparison pool, after the subset's query loop
completes, the four outcome counters of each of the two similarity variants
sum to exactly the number of query records — each query increments exactly
one counter per variant. -/
theorem compareSubset_counts_sum (pool queries : List LinkRec) (h : pool ≠ []) :
    ((compareSubset pool queries).1).total = queries.length ∧
    ((compareSubset pool queries).2).total = queries.length := by
  have hmap : ∀ (f : LinkRec → String × ℚ), pool.map f ≠ [] := by
    intro f hx
    exact h (List.map_eq_nil_iff.mp hx)
  have key : ∀ (qs : List LinkRec) (c : Counters × Counters),
      ((qs.foldl (queryStep pool) c).1).total = c.1.total + qs.length ∧
      ((qs.foldl (queryStep pool) c).2).total = c.2.total + qs.length := by
    intro qs
    induction qs with
    | nil => intro c; simp
    | cons q qs ih =>
      intro c
      rw [List.foldl_cons]
      obtain ⟨ih1, ih2⟩ := ih (queryStep pool c q)
      rw [ih1, ih2]
      have hq1 : (queryStep pool c q).1 =
          classify q.id (pool.map fun cr => (cr.id, bit_array_dice_sim q.og_bf cr.og_bf)) c.1 :=
        rfl
      have hq2 : (queryStep pool c q).2 =
          classify q.id (pool.map fun cr => (cr.id, bit_array_dice_sim q.hd_bf cr.hd_bf)) c.2 :=
        rfl
      rw [hq1, hq2, classify_total _ _ _ (hmap _), classify_total _ _ _ (hmap _)]
      constructor <;> simp only [List.length_cons] <;> omega
  obtain ⟨k1, k2⟩ := key queries (Counters.init, Counters.init)
  unfold compareSubset
  rw [k1, k2]
  simp [Counters.init, Counters.total]

/-- Witness for C3 at a concrete input: one query against a one-record pool
gives counter totals 1 and 1. -/
theorem compareSubset_counts_sum_witness :
    ([⟨"a", [true], [true]⟩] : List LinkRec) ≠ [] ∧
    ((compareSubset [⟨"a", [true], [true]⟩] [⟨"a", [true], [true]⟩]).1).total = 1 ∧
    ((compareSubset [⟨"a", [true], [true]⟩] [⟨"a", [true], [true]⟩]).2).total = 1 := by
  have h := compareSubset_counts_sum [⟨"a", [true], [true]⟩] [⟨"a", [true], [true]⟩]
    (List.cons_ne_nil _ _)
  exact ⟨List.cons_ne_nil _ _, h.1, h.2⟩

/-- C9 (counterexample): the pool-size assertion of `compare_record_pairs`
is a chained comparison that also pins the subset-plus-base total to
`base_sample_size + 1000`; it does not pass whenever the merged pool merely
has size `|S| + |B|`.  With `|pool| = 1`, `|S| = 1`, `|B| = 0` and
`base_sample_size = 0`, the merged pool has exactly the expected size
`|S| + |B|`, yet the check fails. -/
theorem pool_size_check_not_merged_size_only :
    ¬ (pool_size_check 1 1 0 0 = true ↔ 1 = 1 + 0) := by decide

/-- C9 (amended): the engine's pool-size assertion passes exactly when the
merged pool's size equals `|S| + |B|` AND that total equals
`base_sample_size + 1000` (i.e. the subset has exactly 1000 records and the
base has exactly `base_sample_size`); when it fails the engine aborts the
subset with a diagnostic instead of producing counters, and when it passes
the comparison proceeds. -/
theorem pool_size_check_iff (pool queries : List LinkRec)
    (base_len base_sample_size : ℕ) :
    (pool_size_check pool.length queries.length base_len base_sample_size = true ↔
      (pool.length = queries.length + base_len ∧
       queries.length + base_len = base_sample_size + 1000)) ∧
    (compareSubsetChecked pool queries base_len base_sample_size =
        Except.ok (compareSubset pool queries) ↔
      pool_size_check pool.length queries.length base_len base_sample_size = true) ∧
    (pool_size_check pool.length queries.length base_len base_sample_size = false →
      compareSubsetChecked pool queries base_len base_sample_size =
        Except.error
          "Total number of records to compare does not match the expected value") := by
  refine ⟨?_, ?_, ?_⟩
  · simp [pool_size_check, Bool.and_eq_true, beq_iff_eq]
  · by_cases hc : pool_size_check pool.length queries.length base_len base_sample_size <;>
      simp [compareSubsetChecked, hc]
  · intro hc
    simp [compareSubsetChecked, hc]

/-- C8: the Dice similarity of two equal-length bit vectors is nonnegative,
at most 1, equal to 0 when both popcounts are 0, and equal to 1 on
`Dice(A, A)` whenever `popcount(A) > 0`. -/
theorem bit_array_dice_sim_props (A B : List Bool) (h : A.length = B.length) :
    0 ≤ bit_array_dice_sim A B ∧ bit_array_dice_sim A B ≤ 1 ∧
    (A.count true = 0 → B.count true = 0 → bit_array_dice_sim A B = 0) ∧
    (0 < A.count true → bit_array_dice_sim A A = 1) := by
  refine ⟨?_, ?_, ?_, ?_⟩
  · unfold bit_array_dice_sim
    split
    · exact le_refl 0
    · positivity
  · unfold bit_array_dice_sim
    split
    · norm_num
    · rename_i hne
      have hpos : 0 < A.count true + B.count true := Nat.pos_of_ne_zero hne
      have hposq : (0:ℚ) < (A.count true : ℚ) + (B.count true : ℚ) := by
        exact_mod_cast hpos
      rw [div_le_one hposq]
      have h1 := count_zipWith_and_le_left A B
      have h2 := count_zipWith_and_le_right A B
      have : 2 * (A.zipWith (fun x y => x && y) B).count true ≤
          A.count true + B.count true := by omega
      push_cast
      exact_mod_cast this
  · intro ha hb
    unfold bit_array_dice_sim
    rw [if_pos (by omega)]
  · intro ha
    have hz : A.zipWith (fun x y => x && y) A = A := by
      rw [List.zipWith_same]
      simp
    unfold bit_array_dice_sim
    rw [hz, if_neg (by omega)]
    have hne : ((A.count true : ℚ) + (A.count true : ℚ)) ≠ 0 := by
      have : (0:ℚ) < (A.count true : ℚ) + (A.count true : ℚ) := by
        exact_mod_cast Nat.add_pos_left ha _
      exact ne_of_gt this
    rw [div_eq_one_iff_eq hne]
    ring

/-- Witness for C8 at a concrete input: `Dice([true], [true]) = 1` and the
bounds hold. -/
theorem bit_array_dice_sim_props_witness :
    ([true] : List Bool).length = ([true] : List Bool).length ∧
    0 ≤ bit_array_dice_sim [true] [true] ∧ bit_array_dice_sim [true] [true] ≤ 1 ∧
    (0 < ([true] : List Bool).count true → bit_array_dice_sim [true] [true] = 1) := by
  have h := bit_array_dice_sim_props [true] [true] rfl
  exact ⟨rfl, h.1, h.2.1, h.2.2.2⟩
